import Mathlib

/-!
# FracturedTime: a dual-unit fixed-point time value

Shallow embedding of `src/fracturedtime.h` (class template `FracturedTime<T, maxTl>`) and of
the `Hundred` loop of `src/main.cpp`.

Modelling conventions.
* The two private members `th` and `tl` are `std::chrono::duration<double, _>` values; their
  `count()` is modelled by an exact rational (`ℚ`), i.e. `double` arithmetic without rounding
  error. Where the rounding of `double` decides a claim, the definitions with the suffix `D`
  (`recalculateD`, `ctorD`, `timeMSD`) round every arithmetic result to `binary64`.
* The storage type `T` is modelled by `ℤ`: arithmetic on `T` and the casts to `T` are exact, so
  the model agrees with the code as long as every `T` value that occurs is representable. Of
  `T` itself only `std::is_signed<T>::value` is kept, as `Params.isSigned`.
* The members `fromMs`, `setTH`, `setTL` and `setTHTL` are not embedded. `main.cpp` never
  instantiates them, and their bodies (`return {thtl.first, thtl.second}`, `th = val`,
  `tl = val`) need a conversion between `T` and `std::chrono::duration` that does not exist, so
  they have no behaviour to translate.
* `maxTl` (the number of low units per high unit, `R` in the specification) is a template
  argument. The class is meant for `maxTl > 0` only, which `Params` records; the loop of
  `operator-` terminates for that reason.
-/

/-- The private members `TH th; TL tl;` of the class, each by its `count()`. -/
structure FracturedTime where
  th : ℚ
  tl : ℚ
deriving DecidableEq

namespace FracturedTime

/-- Template arguments of `FracturedTime<T, maxTl>`: the signedness of `T` and the resolution
`maxTl`, which is positive. -/
structure Params where
  isSigned : Bool
  maxTl : ℤ
  maxTl_pos : 0 < maxTl

/-- The instantiation `REGISTER_FRACTURED_TIME(int16_t, 2)` of namespace `Half`. -/
def Half : Params := ⟨true, 2, by decide⟩

/-- The instantiation `REGISTER_FRACTURED_TIME(uint32_t, 100)` of namespace `Hundred`. -/
def Hundred : Params := ⟨false, 100, by decide⟩

/-- The function `std::round`: nearest integer, halfway cases away from zero. -/
def stdRound (x : ℚ) : ℤ :=
  if 0 ≤ x then ⌊x + 1 / 2⌋ else ⌈x - 1 / 2⌉

/-- The function `std::modf`: the integral part (truncated toward zero) and the fractional
part of `val`, as the pair `(integer, fractional)`. -/
def modf (val : ℚ) : ℤ × ℚ :=
  let integer : ℤ := if 0 ≤ val then ⌊val⌋ else ⌈val⌉
  (integer, val - integer)

/-- The static member `thtlFromMs`: `TH{integer}` and `duration_cast<TL>(TH{fractional})`; the
cast from `TH` to `TL` multiplies the count by `maxTl`. -/
def thtlFromMs (P : Params) (val : ℚ) : ℚ × ℚ :=
  let m := modf val
  ((m.1 : ℚ), m.2 * P.maxTl)

/-- The member `recalculate`: nothing when `tl.count() < maxTl`; otherwise the low part, cast
to `TH` (its count divided by `maxTl`), is split by `thtlFromMs`, the integral part is added
to `th` and the fractional part replaces `tl`. -/
def recalculate (P : Params) (v : FracturedTime) : FracturedTime :=
  if v.tl < P.maxTl then v
  else
    let newThTl := thtlFromMs P (v.tl / P.maxTl)
    ⟨v.th + newThTl.1, newThTl.2⟩

/-- The pair constructor `FracturedTime(const T th, const T tl)`. -/
def ctor (P : Params) (th tl : ℤ) : FracturedTime :=
  recalculate P ⟨th, tl⟩

/-- The static member `fromTH`. -/
def fromTH (P : Params) (th : ℤ) : FracturedTime := ctor P th 0

/-- The static member `fromTL`. -/
def fromTL (P : Params) (tl : ℤ) : FracturedTime := ctor P 0 tl

/-- The member `getTh`: `static_cast<T>(std::round(th.count()))`. -/
def getTh (v : FracturedTime) : ℤ := stdRound v.th

/-- The member `getTl`: `static_cast<T>(std::round(tl.count()))`. -/
def getTl (v : FracturedTime) : ℤ := stdRound v.tl

/-- The member `timeMS`: `duration_cast<TH>(th + tl).count()`. The sum is taken in the common
type of `TH` and `TL`, which has the period of `TL` (count `th * maxTl + tl`); the cast back to
`TH` divides the count by `maxTl`. -/
def timeMS (P : Params) (v : FracturedTime) : ℚ :=
  (v.th * P.maxTl + v.tl) / P.maxTl

/-- The member `operator==`: `std::tie(th, tl) == std::tie(right.th, right.tl)`. -/
def eq (a b : FracturedTime) : Bool :=
  decide (a.th = b.th ∧ a.tl = b.tl)

/-- The member `operator!=`. -/
def ne (a b : FracturedTime) : Bool := !(eq a b)

/-- The member `operator<`: the lexicographic `operator<` of `std::tuple`. -/
def lt (a b : FracturedTime) : Bool :=
  decide (a.th < b.th ∨ (¬ b.th < a.th ∧ a.tl < b.tl))

/-- The member `operator>`: the `operator>` of `std::tuple`, which is `operator<` with the
operands exchanged. -/
def gt (a b : FracturedTime) : Bool :=
  decide (b.th < a.th ∨ (¬ a.th < b.th ∧ b.tl < a.tl))

/-- The member `operator>=`. -/
def ge (a b : FracturedTime) : Bool := !(lt a b)

/-- The member `operator<=`. -/
def le (a b : FracturedTime) : Bool := !(gt a b)

/-- The member `operator+`. -/
def add (P : Params) (a b : FracturedTime) : FracturedTime :=
  ctor P (getTh a + getTh b) (getTl a + getTl b)

/-- The loop `while (ctl < rtl) { ctl += maxTl; cth -= 1; }` of `operator-`; the result is the
final `(ctl, cth)`. It terminates because `maxTl` is positive. -/
def borrowLoop (P : Params) (rtl ctl cth : ℤ) : ℤ × ℤ :=
  if ctl < rtl then borrowLoop P rtl (ctl + P.maxTl) (cth - 1) else (ctl, cth)
termination_by (rtl - ctl).toNat
decreasing_by
  have := P.maxTl_pos
  omega

/-- The member `operator-`. -/
def sub (P : Params) (a b : FracturedTime) : FracturedTime :=
  if !P.isSigned && lt a b then ctor P 0 0
  else if a.tl < b.tl then
    let rtl := getTl b
    let r := borrowLoop P rtl (getTl a) (getTh a)
    ctor P r.2 (r.1 - rtl)
  else ctor P (getTh a - getTh b) (getTl a - getTl b)

/-- The member `operator+=`: the new value of `*this`. -/
def addAssign (P : Params) (self right : FracturedTime) : FracturedTime :=
  add P self right

/-- The member `operator-=`: the new value of `*this`. -/
def subAssign (P : Params) (self right : FracturedTime) : FracturedTime :=
  sub P self right

/-- The pair printed by `printTime`: `(getTh(), getTl())`. -/
def pair (v : FracturedTime) : ℤ × ℤ := (getTh v, getTl v)

/-- The loop `for (Time i = 5_th; i > 2_th; i -= 33_tl) printTime(i);` of `main`, started at
`i`: the pairs printed, in order. `none` when the loop is still running after `fuel` tests of
its condition. -/
def hundredLoop : ℕ → FracturedTime → Option (List (ℤ × ℤ))
  | 0, _ => none
  | fuel + 1, i =>
    if gt i (fromTH Hundred 2) then
      (hundredLoop fuel (subAssign Hundred i (fromTL Hundred 33))).map
        fun rest => pair i :: rest
    else some []

/-- Values obtainable from the constructors that take `T` arguments, and from such a value
by overwriting its high member, its low member or both with `T` counts, `recalculate` running
after the low member was overwritten (the steps that the bodies of `setTH`, `setTL` and
`setTHTL` spell out). -/
inductive Obtainable (P : Params) : FracturedTime → Prop
  | byCtor (th tl : ℤ) : Obtainable P (FracturedTime.ctor P th tl)
  | byFromTH (th : ℤ) : Obtainable P (FracturedTime.fromTH P th)
  | byFromTL (tl : ℤ) : Obtainable P (FracturedTime.fromTL P tl)
  | byHigh {v : FracturedTime} (val : ℤ) :
      Obtainable P v → Obtainable P ⟨(val : ℚ), v.tl⟩
  | byLow {v : FracturedTime} (val : ℤ) :
      Obtainable P v → Obtainable P (FracturedTime.recalculate P ⟨v.th, (val : ℚ)⟩)
  | byBoth {v : FracturedTime} (th tl : ℤ) :
      Obtainable P v → Obtainable P (FracturedTime.recalculate P ⟨(th : ℚ), (tl : ℚ)⟩)

/-- The loop of `operator-` once more, with a counter `n` of the executions of its body
added; the result is the final `(ctl, cth)` and the final counter. -/
def borrowLoopCount (P : Params) (rtl ctl cth : ℤ) (n : ℕ) : (ℤ × ℤ) × ℕ :=
  if ctl < rtl then borrowLoopCount P rtl (ctl + P.maxTl) (cth - 1) (n + 1)
  else ((ctl, cth), n)
termination_by (rtl - ctl).toNat
decreasing_by
  have := P.maxTl_pos
  omega

/-- The closed form stated for the loop of `operator-`: the number of borrows
`k = ceil((rtl - ctl) / maxTl)`. -/
def borrowCount (P : Params) (rtl ctl : ℤ) : ℤ :=
  ⌈((rtl - ctl : ℤ) : ℚ) / (P.maxTl : ℚ)⌉

/-- Arithmetic of an unsigned `w`-bit storage type `T`: a result is reduced modulo `2 ^ w`. -/
def wrapU (w : ℕ) (z : ℤ) : ℤ := z % 2 ^ w

/-- The loop `while (ctl < rtl) { ctl += maxTl; cth -= 1; }` for an unsigned `w`-bit `T`, the
two assignments reduced modulo `2 ^ w`. With wrap-around the loop need not terminate: `none`
when the condition still holds after `fuel` executions of the body. -/
def borrowLoopU (P : Params) (w : ℕ) (rtl : ℤ) : ℕ → ℤ → ℤ → Option (ℤ × ℤ)
  | 0, ctl, cth => if ctl < rtl then none else some (ctl, cth)
  | fuel + 1, ctl, cth =>
    if ctl < rtl then borrowLoopU P w rtl fuel (wrapU w (ctl + P.maxTl)) (wrapU w (cth - 1))
    else some (ctl, cth)

/-- The member `operator-` for an unsigned `w`-bit `T`: every subtraction and addition on `T`
is reduced modulo `2 ^ w`. The readers `getTh()`, `getTl()` are taken as they are, which is
what `static_cast<T>` gives on a representable value. `none` when the loop is still running
after `fuel` executions of its body. -/
def subU (P : Params) (w fuel : ℕ) (a b : FracturedTime) : Option FracturedTime :=
  if !P.isSigned && lt a b then some (ctor P 0 0)
  else if a.tl < b.tl then
    let rtl := getTl b
    (borrowLoopU P w rtl fuel (getTl a) (getTh a)).map
      fun r => ctor P r.2 (wrapU w (r.1 - rtl))
  else some (ctor P (wrapU w (getTh a - getTh b)) (wrapU w (getTl a - getTl b)))

/-- Rounding to the nearest integer, halfway cases to the even one. -/
def roundNearestEven (q : ℚ) : ℤ :=
  if q - ⌊q⌋ < 1 / 2 then ⌊q⌋
  else if 1 / 2 < q - ⌊q⌋ then ⌊q⌋ + 1
  else if ⌊q⌋ % 2 = 0 then ⌊q⌋ else ⌊q⌋ + 1

/-- Rounding of a real result to `double` (IEEE `binary64`, round to nearest, ties to even):
with `2 ^ e <= |q| < 2 ^ (e + 1)` the result is the nearest multiple of `2 ^ (e - 52)`. The
exponent range is not bounded (no overflow, no subnormal numbers). -/
def roundDouble (q : ℚ) : ℚ :=
  if q = 0 then 0
  else
    let ulp : ℚ := 2 ^ (Int.log 2 |q| - 52)
    roundNearestEven (q / ulp) * ulp

/-- The static member `thtlFromMs` in `double` arithmetic: `std::modf` is exact, the cast of
`TH{fractional}` to `TL` is one multiplication by `maxTl`. -/
def thtlFromMsD (P : Params) (val : ℚ) : ℚ × ℚ :=
  let m := modf val
  ((m.1 : ℚ), roundDouble (m.2 * roundDouble P.maxTl))

/-- The member `recalculate` in `double` arithmetic: the cast of `tl` to `TH` is one division
by `maxTl`, and `th += newThTl.first` is one addition. -/
def recalculateD (P : Params) (v : FracturedTime) : FracturedTime :=
  if v.tl < roundDouble P.maxTl then v
  else
    let newThTl := thtlFromMsD P (roundDouble (v.tl / roundDouble P.maxTl))
    ⟨roundDouble (v.th + newThTl.1), newThTl.2⟩

/-- The pair constructor in `double` arithmetic. -/
def ctorD (P : Params) (th tl : ℤ) : FracturedTime :=
  recalculateD P ⟨roundDouble th, roundDouble tl⟩

/-- The member `timeMS` in `double` arithmetic: the cast of `th` to the common type is one
multiplication by `maxTl`, then one addition, then the cast to `TH` is one division by
`maxTl`. -/
def timeMSD (P : Params) (v : FracturedTime) : ℚ :=
  roundDouble (roundDouble (roundDouble (v.th * roundDouble P.maxTl) + v.tl)
    / roundDouble P.maxTl)

/-! ## Rounding and normalisation lemmas -/

theorem stdRound_intCast (n : ℤ) : stdRound (n : ℚ) = n := by
  unfold stdRound
  split
  · rw [Int.floor_eq_iff]
    constructor <;> norm_num
  · rw [Int.ceil_eq_iff]
    constructor <;> norm_num

theorem floor_cast_div (P : Params) (l : ℤ) : ⌊(l : ℚ) / (P.maxTl : ℚ)⌋ = l / P.maxTl := by
  have hR : (0 : ℚ) < (P.maxTl : ℚ) := by exact_mod_cast P.maxTl_pos
  have hdm : (l : ℚ) = (P.maxTl : ℚ) * ((l / P.maxTl : ℤ) : ℚ) + ((l % P.maxTl : ℤ) : ℚ) := by
    exact_mod_cast (Int.ediv_add_emod l P.maxTl).symm
  have h0 : (0 : ℚ) ≤ ((l % P.maxTl : ℤ) : ℚ) := by
    exact_mod_cast Int.emod_nonneg l (ne_of_gt P.maxTl_pos)
  have h1 : ((l % P.maxTl : ℤ) : ℚ) < (P.maxTl : ℚ) := by
    exact_mod_cast Int.emod_lt_of_pos l P.maxTl_pos
  rw [Int.floor_eq_iff]
  constructor
  · rw [le_div_iff₀ hR]
    nlinarith
  · rw [div_lt_iff₀ hR]
    nlinarith

/-- The member `recalculate` returns at once on an integral low count below `maxTl`. -/
theorem recalculate_of_lt (P : Params) (q : ℚ) (l : ℤ) (h : l < P.maxTl) :
    recalculate P ⟨q, l⟩ = ⟨q, l⟩ := by
  have h' : (l : ℚ) < (P.maxTl : ℚ) := by exact_mod_cast h
  simp only [recalculate, h', if_true]

/-- The member `recalculate` on an integral low count of at least `maxTl`: quotient and
remainder of the division by `maxTl`. -/
theorem recalculate_of_ge (P : Params) (q : ℚ) (l : ℤ) (h : P.maxTl ≤ l) :
    recalculate P ⟨q, l⟩ = ⟨q + ((l / P.maxTl : ℤ) : ℚ), ((l % P.maxTl : ℤ) : ℚ)⟩ := by
  have hR : (0 : ℚ) < (P.maxTl : ℚ) := by exact_mod_cast P.maxTl_pos
  have hle : (P.maxTl : ℚ) ≤ (l : ℚ) := by exact_mod_cast h
  have h' : ¬ (l : ℚ) < (P.maxTl : ℚ) := not_lt.mpr hle
  have hq : (0 : ℚ) ≤ (l : ℚ) / (P.maxTl : ℚ) := div_nonneg (by linarith) hR.le
  have hmod : ((l % P.maxTl : ℤ) : ℚ) = (l : ℚ) - (P.maxTl : ℚ) * ((l / P.maxTl : ℤ) : ℚ) := by
    rw [Int.emod_def]
    push_cast
    ring
  simp only [recalculate, thtlFromMs, modf, h', hq, if_true, if_false, floor_cast_div]
  rw [hmod]
  congr 1
  field_simp

theorem ctor_of_lt (P : Params) (th tl : ℤ) (h : tl < P.maxTl) :
    ctor P th tl = ⟨th, tl⟩ :=
  recalculate_of_lt P th tl h

theorem ctor_of_ge (P : Params) (th tl : ℤ) (h : P.maxTl ≤ tl) :
    ctor P th tl = ⟨((th + tl / P.maxTl : ℤ) : ℚ), ((tl % P.maxTl : ℤ) : ℚ)⟩ := by
  rw [ctor, recalculate_of_ge P th tl h]
  push_cast
  rfl

/-- The pair constructor on a non-negative low count: whole high units are folded out. -/
theorem ctor_of_nonneg (P : Params) (th tl : ℤ) (h : 0 ≤ tl) :
    ctor P th tl = ⟨((th + tl / P.maxTl : ℤ) : ℚ), ((tl % P.maxTl : ℤ) : ℚ)⟩ := by
  rcases lt_or_le tl P.maxTl with hlt | hge
  · rw [ctor_of_lt P th tl hlt, Int.ediv_eq_zero_of_lt h hlt, Int.emod_eq_of_lt h hlt]
    simp
  · exact ctor_of_ge P th tl hge

theorem getTh_intCast (h : ℤ) (q : ℚ) : getTh ⟨(h : ℚ), q⟩ = h := stdRound_intCast h

theorem getTl_intCast (q : ℚ) (l : ℤ) : getTl ⟨q, (l : ℚ)⟩ = l := stdRound_intCast l

/-- The low reader after `recalculate` on an integral low count. -/
theorem getTl_recalculate (P : Params) (q : ℚ) (l : ℤ) :
    getTl (recalculate P ⟨q, l⟩) = if l < P.maxTl then l else l % P.maxTl := by
  split
  · next h => rw [recalculate_of_lt P q l h, getTl_intCast]
  · next h => rw [recalculate_of_ge P q l (not_lt.mp h), getTl_intCast]

/-- The low reader after `recalculate` on an integral low count is below `maxTl`, and it is
non-negative exactly when the count was. -/
theorem getTl_recalculate_range (P : Params) (q : ℚ) (l : ℤ) :
    getTl (recalculate P ⟨q, l⟩) < P.maxTl ∧ (0 ≤ getTl (recalculate P ⟨q, l⟩) ↔ 0 ≤ l) := by
  have hR := P.maxTl_pos
  rw [getTl_recalculate]
  split
  · next h => exact ⟨h, Iff.rfl⟩
  · next h =>
    have h0 := Int.emod_nonneg l (ne_of_gt hR)
    have h1 := Int.emod_lt_of_pos l hR
    exact ⟨h1, ⟨fun _ => by omega, fun _ => h0⟩⟩

theorem borrowLoop_done (P : Params) (rtl ctl cth : ℤ) (h : ¬ ctl < rtl) :
    borrowLoop P rtl ctl cth = (ctl, cth) := by
  rw [borrowLoop, if_neg h]

theorem borrowLoop_step (P : Params) (rtl ctl cth : ℤ) (h : ctl < rtl) :
    borrowLoop P rtl ctl cth = borrowLoop P rtl (ctl + P.maxTl) (cth - 1) := by
  rw [borrowLoop, if_pos h]

/-- After `recalculate` on integral members both members are integral again and the low one
is below `maxTl`. -/
theorem recalculate_integral (P : Params) (th tl : ℤ) :
    ∃ th1 tl1 : ℤ, recalculate P ⟨(th : ℚ), (tl : ℚ)⟩ = ⟨(th1 : ℚ), (tl1 : ℚ)⟩ ∧
      tl1 < P.maxTl := by
  rcases lt_or_le tl P.maxTl with hlt | hge
  · exact ⟨th, tl, recalculate_of_lt P th tl hlt, hlt⟩
  · refine ⟨th + tl / P.maxTl, tl % P.maxTl, ?_, Int.emod_lt_of_pos tl P.maxTl_pos⟩
    rw [recalculate_of_ge P th tl hge]
    push_cast
    rfl

/-- Every obtainable value holds integral members, the low one below `maxTl`. -/
theorem Obtainable.integral {P : Params} {a : FracturedTime} (h : Obtainable P a) :
    ∃ th tl : ℤ, a = ⟨(th : ℚ), (tl : ℚ)⟩ ∧ tl < P.maxTl := by
  induction h with
  | byCtor th tl => exact recalculate_integral P th tl
  | byFromTH th => exact recalculate_integral P th 0
  | byFromTL tl => exact recalculate_integral P 0 tl
  | byHigh val _ ih =>
    obtain ⟨th, tl, rfl, hl⟩ := ih
    exact ⟨val, tl, rfl, hl⟩
  | byLow val _ ih =>
    obtain ⟨th, tl, rfl, _⟩ := ih
    exact recalculate_integral P th val
  | byBoth th tl _ _ => exact recalculate_integral P th tl

/-- More fuel does not change a finished run of the `Hundred` loop. -/
theorem hundredLoop_mono (n k : ℕ) :
    ∀ (i : FracturedTime) (l : List (ℤ × ℤ)),
      hundredLoop n i = some l → hundredLoop (n + k) i = some l := by
  induction n with
  | zero =>
    intro i l h
    simp [hundredLoop] at h
  | succ n ih =>
    intro i l h
    rw [Nat.add_right_comm]
    rw [hundredLoop] at h ⊢
    split at h
    · next hgt =>
      rw [if_pos hgt]
      rw [Option.map_eq_some'] at h ⊢
      obtain ⟨rest, hrest, hl⟩ := h
      exact ⟨rest, ih _ _ hrest, hl⟩
    · next hgt =>
      rw [if_neg hgt]
      exact h

/-- The function `std::round` is monotone. -/
theorem stdRound_mono {x y : ℚ} (h : x ≤ y) : stdRound x ≤ stdRound y := by
  unfold stdRound
  by_cases hx : 0 ≤ x
  · have hy : 0 ≤ y := le_trans hx h
    rw [if_pos hx, if_pos hy]
    exact Int.floor_le_floor (by linarith)
  · rw [if_neg hx]
    have hx' : x < 0 := not_le.mp hx
    by_cases hy : 0 ≤ y
    · rw [if_pos hy]
      have h1 : ⌈x - 1 / 2⌉ ≤ 0 := by
        rw [Int.ceil_le]
        push_cast
        linarith
      have h2 : (0 : ℤ) ≤ ⌊y + 1 / 2⌋ := by
        rw [Int.le_floor]
        push_cast
        linarith
      exact le_trans h1 h2
    · rw [if_neg hy]
      exact Int.ceil_le_ceil (by linarith)

theorem getTh_mono {a b : FracturedTime} (h : a.th ≤ b.th) : getTh a ≤ getTh b :=
  stdRound_mono h

theorem getTl_mono {a b : FracturedTime} (h : a.tl ≤ b.tl) : getTl a ≤ getTl b :=
  stdRound_mono h

/-- The loop of `operator-` after exactly `n` executions of its body: `n` is the first count
with `rtl <= ctl + n * maxTl`. -/
theorem borrowLoop_closed (P : Params) (rtl : ℤ) (n : ℕ) :
    ∀ ctl cth : ℤ, ctl + n * P.maxTl < rtl + P.maxTl → rtl ≤ ctl + n * P.maxTl →
      borrowLoop P rtl ctl cth = (ctl + n * P.maxTl, cth - n) := by
  induction n with
  | zero =>
    intro ctl cth _ h2
    simp only [Nat.cast_zero, zero_mul, add_zero, sub_zero] at h2 ⊢
    exact borrowLoop_done P rtl ctl cth (not_lt.mpr h2)
  | succ n ih =>
    intro ctl cth h1 h2
    have hR := P.maxTl_pos
    have hn : (0 : ℤ) ≤ n * P.maxTl := by positivity
    push_cast at h1 h2 ⊢
    have hlt : ctl < rtl := by nlinarith
    rw [borrowLoop_step P rtl ctl cth hlt,
      ih (ctl + P.maxTl) (cth - 1) (by linarith) (by linarith)]
    refine Prod.ext ?_ ?_ <;> simp only <;> ring

/-- The counted loop after exactly `n` executions of its body. -/
theorem borrowLoopCount_closed (P : Params) (rtl : ℤ) (n : ℕ) :
    ∀ (ctl cth : ℤ) (m : ℕ), ctl + n * P.maxTl < rtl + P.maxTl → rtl ≤ ctl + n * P.maxTl →
      borrowLoopCount P rtl ctl cth m = ((ctl + n * P.maxTl, cth - n), m + n) := by
  induction n with
  | zero =>
    intro ctl cth m _ h2
    simp only [Nat.cast_zero, zero_mul, add_zero, sub_zero] at h2 ⊢
    rw [borrowLoopCount, if_neg (not_lt.mpr h2)]
  | succ n ih =>
    intro ctl cth m h1 h2
    have hR := P.maxTl_pos
    have hn : (0 : ℤ) ≤ n * P.maxTl := by positivity
    push_cast at h1 h2 ⊢
    have hlt : ctl < rtl := by nlinarith
    rw [borrowLoopCount, if_pos hlt,
      ih (ctl + P.maxTl) (cth - 1) (m + 1) (by linarith) (by linarith)]
    refine Prod.ext (Prod.ext ?_ ?_) ?_ <;> simp only <;> ring

/-- The borrow count `k = ceil((rtl - ctl) / maxTl)` is the integer with
`(k - 1) * maxTl < rtl - ctl <= k * maxTl`. -/
theorem borrowCount_spec (P : Params) (rtl ctl : ℤ) :
    (borrowCount P rtl ctl - 1) * P.maxTl < rtl - ctl ∧
    rtl - ctl ≤ borrowCount P rtl ctl * P.maxTl := by
  have hR : (0 : ℚ) < (P.maxTl : ℚ) := by exact_mod_cast P.maxTl_pos
  have h1 := Int.ceil_lt_add_one (((rtl - ctl : ℤ) : ℚ) / (P.maxTl : ℚ))
  have h2 := Int.le_ceil (((rtl - ctl : ℤ) : ℚ) / (P.maxTl : ℚ))
  rw [div_le_iff₀ hR] at h2
  rw [← sub_lt_iff_lt_add, lt_div_iff₀ hR] at h1
  unfold borrowCount
  constructor
  · exact_mod_cast h1
  · exact_mod_cast h2

/-- The operator `-` in its borrow branch. -/
theorem sub_borrow (P : Params) (a b : FracturedTime)
    (hc : (!P.isSigned && lt a b) = false) (hb : a.tl < b.tl) :
    sub P a b = ctor P (borrowLoop P (getTl b) (getTl a) (getTh a)).2
      ((borrowLoop P (getTl b) (getTl a) (getTh a)).1 - getTl b) := by
  simp only [sub, hc, hb, if_true, Bool.false_eq_true, if_false]

/-- The operator `-` in its direct branch. -/
theorem sub_direct (P : Params) (a b : FracturedTime)
    (hc : (!P.isSigned && lt a b) = false) (hb : ¬ a.tl < b.tl) :
    sub P a b = ctor P (getTh a - getTh b) (getTl a - getTl b) := by
  simp only [sub, hc, hb, Bool.false_eq_true, if_false]

/-- The operator `-` in its clamp branch. -/
theorem sub_clamp (P : Params) (a b : FracturedTime)
    (hc : (!P.isSigned && lt a b) = true) :
    sub P a b = ctor P 0 0 := by
  simp only [sub, hc, if_true]

/-- The loop of `operator-` ends with `ctl` at least `rtl`. -/
theorem borrowLoop_fst_ge (P : Params) (rtl ctl cth : ℤ) :
    rtl ≤ (borrowLoop P rtl ctl cth).1 := by
  rcases lt_or_le ctl rtl with h | h
  · have hR := P.maxTl_pos
    obtain ⟨s1, s2⟩ := borrowCount_spec P rtl ctl
    have hk : 0 ≤ borrowCount P rtl ctl := by
      by_contra hk
      have hk' : borrowCount P rtl ctl ≤ -1 := by omega
      nlinarith
    have hcast : ((borrowCount P rtl ctl).toNat : ℤ) = borrowCount P rtl ctl :=
      Int.toNat_of_nonneg hk
    rw [borrowLoop_closed P rtl (borrowCount P rtl ctl).toNat ctl cth
      (by rw [hcast]; linarith) (by rw [hcast]; linarith), hcast]
    show rtl ≤ ctl + borrowCount P rtl ctl * P.maxTl
    linarith
  · rw [borrowLoop_done P rtl ctl cth (not_lt.mpr h)]
    exact h

/-- The pair constructor on a non-negative low count leaves a low reading in `[0, maxTl)`. -/
theorem getTl_ctor_range (P : Params) (th tl : ℤ) (h : 0 ≤ tl) :
    0 ≤ getTl (ctor P th tl) ∧ getTl (ctor P th tl) < P.maxTl :=
  ⟨(getTl_recalculate_range P th tl).2.mpr h, (getTl_recalculate_range P th tl).1⟩

/-- The operator `-` always leaves a low reading in `[0, maxTl)`. -/
theorem getTl_sub_range (P : Params) (a b : FracturedTime) :
    0 ≤ getTl (sub P a b) ∧ getTl (sub P a b) < P.maxTl := by
  by_cases hc : (!P.isSigned && lt a b) = true
  · rw [sub_clamp P a b hc]
    exact getTl_ctor_range P 0 0 le_rfl
  · have hc' : (!P.isSigned && lt a b) = false := by simpa using hc
    by_cases hb : a.tl < b.tl
    · rw [sub_borrow P a b hc' hb]
      exact getTl_ctor_range P _ _ (by
        have := borrowLoop_fst_ge P (getTl b) (getTl a) (getTh a)
        omega)
    · rw [sub_direct P a b hc' hb]
      exact getTl_ctor_range P _ _ (by
        have := getTl_mono (not_lt.mp hb)
        omega)

/-- The operator `<` is the strict lexicographic order on `(th, tl)`. -/
theorem lt_iff_lex (a b : FracturedTime) :
    lt a b = true ↔ a.th < b.th ∨ (a.th = b.th ∧ a.tl < b.tl) := by
  simp only [lt, decide_eq_true_eq]
  constructor
  · rintro (h | ⟨h1, h2⟩)
    · exact Or.inl h
    · rcases lt_or_eq_of_le (not_lt.mp h1) with h3 | h3
      · exact Or.inl h3
      · exact Or.inr ⟨h3, h2⟩
  · rintro (h | ⟨h1, h2⟩)
    · exact Or.inl h
    · exact Or.inr ⟨by rw [h1]; exact lt_irrefl _, h2⟩

/-- The member `timeMS` is `th + tl / maxTl`. -/
theorem timeMS_eq (P : Params) (v : FracturedTime) :
    timeMS P v = v.th + v.tl / (P.maxTl : ℚ) := by
  have hR : (0 : ℚ) < (P.maxTl : ℚ) := by exact_mod_cast P.maxTl_pos
  unfold timeMS
  field_simp

/-- Arithmetic modulo `2 ^ w` leaves a representable value as it is. -/
theorem wrapU_of_range (w : ℕ) (z : ℤ) (h0 : 0 ≤ z) (h1 : z < 2 ^ w) : wrapU w z = z :=
  Int.emod_eq_of_lt h0 h1

/-- The loop for an unsigned `w`-bit `T` returns at once when its condition fails. -/
theorem borrowLoopU_done (P : Params) (w : ℕ) (rtl : ℤ) (fuel : ℕ) (ctl cth : ℤ)
    (h : ¬ ctl < rtl) : borrowLoopU P w rtl fuel ctl cth = some (ctl, cth) := by
  cases fuel with
  | zero => rw [borrowLoopU, if_neg h]
  | succ n => rw [borrowLoopU, if_neg h]

/-- The high member of an obtainable value holds a whole number. -/
theorem Obtainable.th_whole {P : Params} {a : FracturedTime} (h : Obtainable P a) :
    a.th = (getTh a : ℚ) := by
  obtain ⟨th, tl, rfl, _⟩ := h.integral
  rw [getTh_intCast]

/-! ## The claims -/

/-- C1 (the code at a failing input): with `uint32_t` and `maxTl = 100`, `a = (0, 50)` and
`b = (1, 60)`, the sum `a + b` reads `(2, 10)`, it is not `< b` (no clamp applies), and
`(a + b) - b` reads `(1, 50)`, not the pair `(0, 50)` of `a`: the borrow branch of `operator-`
never subtracts `b.getTh()`. -/
theorem C1_duality_fails_on_borrow :
    pair (ctor Hundred 0 50) = (0, 50) ∧ pair (ctor Hundred 1 60) = (1, 60) ∧
    pair (add Hundred (ctor Hundred 0 50) (ctor Hundred 1 60)) = (2, 10) ∧
    lt (add Hundred (ctor Hundred 0 50) (ctor Hundred 1 60)) (ctor Hundred 1 60) = false ∧
    pair (sub Hundred (add Hundred (ctor Hundred 0 50) (ctor Hundred 1 60)) (ctor Hundred 1 60))
      = (1, 50) := by
  decide!

/-- C2 (the code at a failing input): with `uint32_t` and `maxTl = 100`, `a = (5, 10)` and
`b = (1, 33)`, no clamp applies and the borrow branch of `operator-` returns `(4, 77)`, a
total of 477 low units, while the totals of `a` and `b` differ by 510 - 133 = 377: the high
part of `b` is not subtracted. -/
theorem C2_borrow_branch_drops_high :
    lt (ctor Hundred 5 10) (ctor Hundred 1 33) = false ∧
    pair (sub Hundred (ctor Hundred 5 10) (ctor Hundred 1 33)) = (4, 77) ∧
    getTh (sub Hundred (ctor Hundred 5 10) (ctor Hundred 1 33)) * Hundred.maxTl
        + getTl (sub Hundred (ctor Hundred 5 10) (ctor Hundred 1 33)) = 477 ∧
    (getTh (ctor Hundred 5 10) * Hundred.maxTl + getTl (ctor Hundred 5 10))
        - (getTh (ctor Hundred 1 33) * Hundred.maxTl + getTl (ctor Hundred 1 33)) = 377 := by
  decide!

/-- C3 (as stated, refuted): in the `Hundred` loop the value after `(3, 2)` reads `(2, 69)`
and is still `> 2_th`, and no run of the loop from `5_th` prints exactly the seven pairs
`(5,0), (4,67), (4,34), (4,1), (3,68), (3,35), (3,2)`. -/
theorem C3_golden_sequence_too_short :
    pair (subAssign Hundred (ctor Hundred 3 2) (fromTL Hundred 33)) = (2, 69) ∧
    gt (subAssign Hundred (ctor Hundred 3 2) (fromTL Hundred 33)) (fromTH Hundred 2) = true ∧
    ¬ ∃ fuel : ℕ, hundredLoop fuel (fromTH Hundred 5)
        = some [(5, 0), (4, 67), (4, 34), (4, 1), (3, 68), (3, 35), (3, 2)] := by
  refine ⟨by decide!, by decide!, ?_⟩
  rintro ⟨fuel, h⟩
  have h1 := hundredLoop_mono fuel 11 _ _ h
  have h2 : hundredLoop 11 (fromTH Hundred 5)
      = some [(5, 0), (4, 67), (4, 34), (4, 1), (3, 68), (3, 35), (3, 2),
          (2, 69), (2, 36), (2, 3)] := by
    decide!
  have h3 := hundredLoop_mono 11 fuel _ _ h2
  rw [Nat.add_comm] at h3
  rw [h1] at h3
  exact absurd h3 (by decide)

/-- C3 (amended): with `uint32_t` and `maxTl = 100`, the loop
`for (i = fromTH(5); i > fromTH(2); i -= fromTL(33))` visits exactly the pairs `(5,0)`,
`(4,67)`, `(4,34)`, `(4,1)`, `(3,68)`, `(3,35)`, `(3,2)`, `(2,69)`, `(2,36)`, `(2,3)`, in that
order, and then stops: eleven tests of the condition are enough, and the value after `(2,3)`
reads `(1, 70)` and is not `> (2, 0)`. -/
theorem C3_hundred_loop_sequence (k : ℕ) :
    hundredLoop (11 + k) (fromTH Hundred 5)
      = some [(5, 0), (4, 67), (4, 34), (4, 1), (3, 68), (3, 35), (3, 2),
          (2, 69), (2, 36), (2, 3)] ∧
    pair (subAssign Hundred (ctor Hundred 2 3) (fromTL Hundred 33)) = (1, 70) ∧
    gt (subAssign Hundred (ctor Hundred 2 3) (fromTL Hundred 33)) (fromTH Hundred 2) = false := by
  refine ⟨hundredLoop_mono 11 k _ _ (by decide!), by decide!, by decide!⟩

/-- C4 (as stated, refuted): in the instantiation `Half` (`int16_t`, `maxTl = 2`) the pair
constructor and `fromTL` keep a low argument of `-1` as it is, and so does `recalculate` on a
value whose low member was overwritten with `-1`, so `0 <= getTl()` fails. -/
theorem C4_negative_low_kept :
    getTl (ctor Half 0 (-1)) = -1 ∧ getTl (fromTL Half (-1)) = -1 ∧
    getTl (recalculate Half ⟨(ctor Half 0 0).th, ((-1 : ℤ) : ℚ)⟩) = -1 ∧
    getTl (recalculate Half ⟨((0 : ℤ) : ℚ), ((-1 : ℤ) : ℚ)⟩) = -1 ∧
    ¬ (0 ≤ getTl (ctor Half 0 (-1)) ∧ getTl (ctor Half 0 (-1)) < Half.maxTl) := by
  decide!

/-- C4 (amended): for every positive `maxTl`, every `T` and all `th`, `tl`, the value built by
the pair constructor or by `fromTL`, and the value left by `recalculate` after the low member
(or both members) of any value was overwritten with `T` counts, which is what the bodies of
`setTL` and `setTHTL` spell out, has `getTl() < maxTl`, and `0 <= getTl()` holds exactly when
the low argument is non-negative (always, for an unsigned `T`). A low argument below `maxTl`,
so every negative one, is stored as it is. -/
theorem C4_normalization_invariant (P : Params) (v : FracturedTime) (th tl : ℤ) :
    (getTl (ctor P th tl) < P.maxTl ∧ (0 ≤ getTl (ctor P th tl) ↔ 0 ≤ tl)) ∧
    (getTl (fromTL P tl) < P.maxTl ∧ (0 ≤ getTl (fromTL P tl) ↔ 0 ≤ tl)) ∧
    (getTl (recalculate P ⟨v.th, (tl : ℚ)⟩) < P.maxTl ∧
      (0 ≤ getTl (recalculate P ⟨v.th, (tl : ℚ)⟩) ↔ 0 ≤ tl)) ∧
    (getTl (recalculate P ⟨(th : ℚ), (tl : ℚ)⟩) < P.maxTl ∧
      (0 ≤ getTl (recalculate P ⟨(th : ℚ), (tl : ℚ)⟩) ↔ 0 ≤ tl)) ∧
    ctor P th tl
      = (if tl < P.maxTl then ⟨(th : ℚ), (tl : ℚ)⟩
        else ⟨((th + tl / P.maxTl : ℤ) : ℚ), ((tl % P.maxTl : ℤ) : ℚ)⟩) := by
  refine ⟨getTl_recalculate_range P th tl, getTl_recalculate_range P ((0 : ℤ) : ℚ) tl,
    getTl_recalculate_range P v.th tl, getTl_recalculate_range P th tl, ?_⟩
  split
  · next h => exact ctor_of_lt P th tl h
  · next h => exact ctor_of_ge P th tl (not_lt.mp h)

/-- C5: for an unsigned `T` and all values `a`, `b` with `a < b`, the difference `a - b` is
`FracturedTime(0, 0)`: it reads `getTh() = 0` and `getTl() = 0` and compares `==` to
`FracturedTime(0, 0)`. -/
theorem C5_unsigned_clamp (P : Params) (a b : FracturedTime)
    (hT : P.isSigned = false) (hlt : lt a b = true) :
    sub P a b = ctor P 0 0 ∧ getTh (sub P a b) = 0 ∧ getTl (sub P a b) = 0 ∧
    eq (sub P a b) (ctor P 0 0) = true := by
  have hs : sub P a b = ctor P 0 0 := by
    simp only [sub, hT, hlt, Bool.not_false, Bool.and_self, if_true]
  have hz : ctor P 0 0 = ⟨((0 : ℤ) : ℚ), ((0 : ℤ) : ℚ)⟩ := ctor_of_lt P 0 0 P.maxTl_pos
  refine ⟨hs, ?_, ?_, ?_⟩
  · rw [hs, hz, getTh_intCast]
  · rw [hs, hz, getTl_intCast]
  · rw [hs]
    simp only [eq, and_self, decide_True]

/-- C5, at `uint32_t` and `maxTl = 100`: `(2, 10) - (3, 0)` is `(0, 0)`. -/
theorem C5_unsigned_clamp_witness :
    Hundred.isSigned = false ∧ lt (ctor Hundred 2 10) (ctor Hundred 3 0) = true ∧
    (sub Hundred (ctor Hundred 2 10) (ctor Hundred 3 0) = ctor Hundred 0 0 ∧
      getTh (sub Hundred (ctor Hundred 2 10) (ctor Hundred 3 0)) = 0 ∧
      getTl (sub Hundred (ctor Hundred 2 10) (ctor Hundred 3 0)) = 0 ∧
      eq (sub Hundred (ctor Hundred 2 10) (ctor Hundred 3 0)) (ctor Hundred 0 0) = true) :=
  ⟨rfl, by decide!,
    C5_unsigned_clamp Hundred (ctor Hundred 2 10) (ctor Hundred 3 0) rfl (by decide!)⟩

/-- C6: with `uint32_t` and `maxTl = 100`, `fromTL(33)` reads `(0, 33)` and
`FracturedTime(5, 0) - fromTL(33)` reads `(4, 67)`. -/
theorem C6_borrow_single_step :
    pair (fromTL Hundred 33) = (0, 33) ∧
    pair (sub Hundred (ctor Hundred 5 0) (fromTL Hundred 33)) = (4, 67) := by
  decide!

/-- C7: for every positive `maxTl` and all `th`, `tl` with `tl >= 0`, the pair constructor
gives `getTh() = th + tl div maxTl` and `getTl() = tl mod maxTl`; `fromTL(tl)` reads
`(tl div maxTl, tl mod maxTl)`; and when `tl < maxTl` both arguments are stored unchanged. -/
theorem C7_ctor_folds_low (P : Params) (th tl : ℤ) (h : 0 ≤ tl) :
    getTh (ctor P th tl) = th + tl / P.maxTl ∧
    getTl (ctor P th tl) = tl % P.maxTl ∧
    pair (fromTL P tl) = (tl / P.maxTl, tl % P.maxTl) ∧
    (tl < P.maxTl → ctor P th tl = ⟨(th : ℚ), (tl : ℚ)⟩) := by
  refine ⟨?_, ?_, ?_, ctor_of_lt P th tl⟩
  · rw [ctor_of_nonneg P th tl h, getTh_intCast]
  · rw [ctor_of_nonneg P th tl h, getTl_intCast]
  · rw [fromTL, pair, ctor_of_nonneg P 0 tl h, getTh_intCast, getTl_intCast, zero_add]

/-- C7, at `maxTl = 100`: `FracturedTime(5, 133)` reads `(6, 33)`, and `FracturedTime(5, 33)`
is stored unchanged. -/
theorem C7_ctor_folds_low_witness :
    ((0 : ℤ) ≤ 133 ∧
      getTh (ctor Hundred 5 133) = 5 + 133 / Hundred.maxTl ∧
      getTl (ctor Hundred 5 133) = 133 % Hundred.maxTl ∧
      pair (fromTL Hundred 133) = (133 / Hundred.maxTl, 133 % Hundred.maxTl) ∧
      ((133 : ℤ) < Hundred.maxTl → ctor Hundred 5 133 = ⟨((5 : ℤ) : ℚ), ((133 : ℤ) : ℚ)⟩)) ∧
    ((0 : ℤ) ≤ 33 ∧ (33 : ℤ) < Hundred.maxTl ∧
      ctor Hundred 5 33 = ⟨((5 : ℤ) : ℚ), ((33 : ℤ) : ℚ)⟩) :=
  ⟨⟨by decide, C7_ctor_folds_low Hundred 5 133 (by decide)⟩,
    ⟨by decide, by decide, (C7_ctor_folds_low Hundred 5 33 (by decide)).2.2.2 (by decide)⟩⟩

/-- C8: `timeMS()` of `FracturedTime(th, tl)` is `th + tl / maxTl` as an exact rational,
whether or not `recalculate` changes the members, and `timeMS()` of any value is its stored
`th` plus its stored `tl` divided by `maxTl`. -/
theorem C8_timeMS_scaled_sum (P : Params) (v : FracturedTime) (th tl : ℤ) :
    timeMS P (ctor P th tl) = (th : ℚ) + (tl : ℚ) / (P.maxTl : ℚ) ∧
    timeMS P v = v.th + v.tl / (P.maxTl : ℚ) := by
  have hR : (0 : ℚ) < (P.maxTl : ℚ) := by exact_mod_cast P.maxTl_pos
  have hne : (P.maxTl : ℚ) ≠ 0 := ne_of_gt hR
  have hv : ∀ w : FracturedTime, timeMS P w = w.th + w.tl / (P.maxTl : ℚ) := by
    intro w
    unfold timeMS
    field_simp
  refine ⟨?_, hv v⟩
  rw [hv]
  rcases lt_or_le tl P.maxTl with hlt | hge
  · rw [ctor_of_lt P th tl hlt]
  · rw [ctor, recalculate_of_ge P th tl hge]
    have hmod : ((tl % P.maxTl : ℤ) : ℚ)
        = (tl : ℚ) - (P.maxTl : ℚ) * ((tl / P.maxTl : ℤ) : ℚ) := by
      rw [Int.emod_def]
      push_cast
      ring
    simp only [hmod]
    field_simp
    ring

/-- C10: for every value `a` obtainable from the `T` constructors and mutators, `a + zero` and
`zero + a`, with `zero = FracturedTime(0, 0)`, read the same `getTh()` and `getTl()` as `a`. -/
theorem C10_additive_identity (P : Params) (a : FracturedTime) (h : Obtainable P a) :
    (getTh (add P a (ctor P 0 0)) = getTh a ∧ getTl (add P a (ctor P 0 0)) = getTl a) ∧
    (getTh (add P (ctor P 0 0) a) = getTh a ∧ getTl (add P (ctor P 0 0) a) = getTl a) := by
  obtain ⟨th, tl, rfl, hl⟩ := h.integral
  have hz : ctor P 0 0 = ⟨((0 : ℤ) : ℚ), ((0 : ℤ) : ℚ)⟩ := ctor_of_lt P 0 0 P.maxTl_pos
  have hr : add P ⟨(th : ℚ), (tl : ℚ)⟩ (ctor P 0 0) = ⟨(th : ℚ), (tl : ℚ)⟩ := by
    rw [add, hz]
    simp only [getTh_intCast, getTl_intCast, add_zero]
    exact ctor_of_lt P th tl hl
  have hl' : add P (ctor P 0 0) ⟨(th : ℚ), (tl : ℚ)⟩ = ⟨(th : ℚ), (tl : ℚ)⟩ := by
    rw [add, hz]
    simp only [getTh_intCast, getTl_intCast, zero_add]
    exact ctor_of_lt P th tl hl
  rw [hr, hl']
  exact ⟨⟨rfl, rfl⟩, ⟨rfl, rfl⟩⟩

/-- C10, at `maxTl = 100`, for `FracturedTime(1, 133)`, which reads `(2, 33)`. -/
theorem C10_additive_identity_witness :
    Obtainable Hundred (ctor Hundred 1 133) ∧
    ((getTh (add Hundred (ctor Hundred 1 133) (ctor Hundred 0 0))
        = getTh (ctor Hundred 1 133) ∧
      getTl (add Hundred (ctor Hundred 1 133) (ctor Hundred 0 0))
        = getTl (ctor Hundred 1 133)) ∧
     (getTh (add Hundred (ctor Hundred 0 0) (ctor Hundred 1 133))
        = getTh (ctor Hundred 1 133) ∧
      getTl (add Hundred (ctor Hundred 0 0) (ctor Hundred 1 133))
        = getTl (ctor Hundred 1 133))) :=
  ⟨Obtainable.byCtor 1 133,
    C10_additive_identity Hundred (ctor Hundred 1 133) (Obtainable.byCtor 1 133)⟩

/-- C11: for all values `a`, `b` exactly one of `a < b`, `a == b`, `a > b` holds; `==` is
equality of both stored members, and `<`, `>` are lexicographic on `(th, tl)`, `th` first. -/
theorem C11_trichotomy (a b : FracturedTime) :
    ((lt a b = true ∧ eq a b = false ∧ gt a b = false) ∨
      (lt a b = false ∧ eq a b = true ∧ gt a b = false) ∨
      (lt a b = false ∧ eq a b = false ∧ gt a b = true)) ∧
    (eq a b = true ↔ a.th = b.th ∧ a.tl = b.tl) ∧
    (lt a b = true ↔ a.th < b.th ∨ (a.th = b.th ∧ a.tl < b.tl)) ∧
    (gt a b = true ↔ b.th < a.th ∨ (a.th = b.th ∧ b.tl < a.tl)) := by
  have hE : eq a b = true ↔ a.th = b.th ∧ a.tl = b.tl := by
    simp only [eq, decide_eq_true_eq]
  have hL : lt a b = true ↔ a.th < b.th ∨ (a.th = b.th ∧ a.tl < b.tl) := by
    simp only [lt, decide_eq_true_eq]
    constructor
    · rintro (h | ⟨h1, h2⟩)
      · exact Or.inl h
      · rcases lt_or_eq_of_le (not_lt.mp h1) with h3 | h3
        · exact Or.inl h3
        · exact Or.inr ⟨h3, h2⟩
    · rintro (h | ⟨h1, h2⟩)
      · exact Or.inl h
      · exact Or.inr ⟨by rw [h1]; exact lt_irrefl _, h2⟩
  have hG : gt a b = true ↔ b.th < a.th ∨ (a.th = b.th ∧ b.tl < a.tl) := by
    simp only [gt, decide_eq_true_eq]
    constructor
    · rintro (h | ⟨h1, h2⟩)
      · exact Or.inl h
      · rcases lt_or_eq_of_le (not_lt.mp h1) with h3 | h3
        · exact Or.inl h3
        · exact Or.inr ⟨h3.symm, h2⟩
    · rintro (h | ⟨h1, h2⟩)
      · exact Or.inl h
      · exact Or.inr ⟨by rw [h1]; exact lt_irrefl _, h2⟩
  refine ⟨?_, hE, hL, hG⟩
  have nE : eq a b = false ↔ ¬ (a.th = b.th ∧ a.tl = b.tl) := by
    rw [← hE, Bool.not_eq_true]
  have nL : lt a b = false ↔ ¬ (a.th < b.th ∨ (a.th = b.th ∧ a.tl < b.tl)) := by
    rw [← hL, Bool.not_eq_true]
  have nG : gt a b = false ↔ ¬ (b.th < a.th ∨ (a.th = b.th ∧ b.tl < a.tl)) := by
    rw [← hG, Bool.not_eq_true]
  rw [hE, hL, hG, nE, nL, nG]
  rcases lt_trichotomy a.th b.th with h | h | h
  · left
    refine ⟨Or.inl h, ?_, ?_⟩
    · rintro ⟨h1, _⟩
      exact absurd h1 (ne_of_lt h)
    · rintro (h1 | ⟨h1, _⟩)
      · exact lt_asymm h h1
      · exact absurd h1 (ne_of_lt h)
  · rcases lt_trichotomy a.tl b.tl with k | k | k
    · left
      refine ⟨Or.inr ⟨h, k⟩, ?_, ?_⟩
      · rintro ⟨_, h2⟩
        exact absurd h2 (ne_of_lt k)
      · rintro (h1 | ⟨_, h2⟩)
        · exact absurd h.symm (ne_of_lt h1)
        · exact lt_asymm k h2
    · right; left
      refine ⟨?_, ⟨h, k⟩, ?_⟩
      · rintro (h1 | ⟨_, h2⟩)
        · exact absurd h (ne_of_lt h1)
        · exact absurd k (ne_of_lt h2)
      · rintro (h1 | ⟨_, h2⟩)
        · exact absurd h.symm (ne_of_lt h1)
        · exact absurd k.symm (ne_of_lt h2)
    · right; right
      refine ⟨?_, ?_, Or.inr ⟨h, k⟩⟩
      · rintro (h1 | ⟨_, h2⟩)
        · exact absurd h (ne_of_lt h1)
        · exact lt_asymm k h2
      · rintro ⟨_, h2⟩
        exact absurd h2.symm (ne_of_lt k)
  · right; right
    refine ⟨?_, ?_, Or.inl h⟩
    · rintro (h1 | ⟨h1, _⟩)
      · exact lt_asymm h h1
      · exact absurd h1.symm (ne_of_lt h)
    · rintro ⟨h1, _⟩
      exact absurd h1.symm (ne_of_lt h)

/-- C12: for all `a`, `b`, `a <= b` is `!(a > b)`, `a >= b` is `!(a < b)` and `a != b` is
`!(a == b)`; and these agree with the order: `a <= b` iff `a < b` or `a == b`, and `a >= b`
iff `a > b` or `a == b`. -/
theorem C12_negation_consistency (a b : FracturedTime) :
    le a b = !(gt a b) ∧ ge a b = !(lt a b) ∧ ne a b = !(eq a b) ∧
    (le a b = true ↔ (lt a b = true ∨ eq a b = true)) ∧
    (ge a b = true ↔ (gt a b = true ∨ eq a b = true)) := by
  refine ⟨rfl, rfl, rfl, ?_, ?_⟩
  · simp only [le, lt, gt, eq, Bool.not_eq_true', decide_eq_false_iff_not, decide_eq_true_eq]
    constructor
    · intro h
      rw [not_or, not_and_or, not_not] at h
      obtain ⟨h1, h2⟩ := h
      have h1' := not_lt.mp h1
      rcases lt_or_eq_of_le h1' with h3 | h3
      · exact Or.inl (Or.inl h3)
      · rcases h2 with h2 | h2
        · exact absurd h3 (ne_of_lt h2)
        · rcases lt_or_eq_of_le (not_lt.mp h2) with h4 | h4
          · exact Or.inl (Or.inr ⟨h1, h4⟩)
          · exact Or.inr ⟨h3, h4⟩
    · rintro ((h | ⟨h1, h2⟩) | ⟨h1, h2⟩)
      · rintro (k | ⟨k1, _⟩)
        · exact lt_asymm h k
        · exact k1 h
      · rintro (k | ⟨_, k2⟩)
        · exact h1 k
        · exact lt_asymm h2 k2
      · rintro (k | ⟨_, k2⟩)
        · exact absurd h1.symm (ne_of_lt k)
        · exact absurd h2.symm (ne_of_lt k2)
  · simp only [ge, lt, gt, eq, Bool.not_eq_true', decide_eq_false_iff_not, decide_eq_true_eq]
    constructor
    · intro h
      rw [not_or, not_and_or, not_not] at h
      obtain ⟨h1, h2⟩ := h
      have h1' := not_lt.mp h1
      rcases lt_or_eq_of_le h1' with h3 | h3
      · exact Or.inl (Or.inl h3)
      · rcases h2 with h2 | h2
        · exact absurd h3 (ne_of_lt h2)
        · rcases lt_or_eq_of_le (not_lt.mp h2) with h4 | h4
          · exact Or.inl (Or.inr ⟨h1, h4⟩)
          · exact Or.inr ⟨h3.symm, h4.symm⟩
    · rintro ((h | ⟨h1, h2⟩) | ⟨h1, h2⟩)
      · rintro (k | ⟨k1, _⟩)
        · exact lt_asymm h k
        · exact k1 h
      · rintro (k | ⟨_, k2⟩)
        · exact h1 k
        · exact lt_asymm h2 k2
      · rintro (k | ⟨_, k2⟩)
        · exact absurd h1 (ne_of_lt k)
        · exact absurd h2 (ne_of_lt k2)

/-- C16: for every positive `maxTl` and all integers `cth`, `ctl`, `rtl` with `ctl < rtl`,
the loop `while (ctl < rtl) { ctl += maxTl; cth -= 1; }` ends after exactly
`k = ceil((rtl - ctl) / maxTl)` executions of its body, `k >= 1`, with `ctl + k * maxTl` and
`cth - k`; the low count `ctl + k * maxTl - rtl` lies in `[0, maxTl)`; `k = 1` when `0 <= ctl`
and `rtl < maxTl`; and for operands `a`, `b` reading `cth`, `ctl`, `rtl`, the borrow branch of
`a - b` returns the pair constructor on `(cth - k, ctl + k * maxTl - rtl)`. -/
theorem C16_borrow_loop_closed_form (P : Params) (cth ctl rtl : ℤ) (h : ctl < rtl) :
    borrowLoopCount P rtl ctl cth 0
      = ((ctl + borrowCount P rtl ctl * P.maxTl, cth - borrowCount P rtl ctl),
          (borrowCount P rtl ctl).toNat) ∧
    1 ≤ borrowCount P rtl ctl ∧
    borrowLoop P rtl ctl cth
      = (ctl + borrowCount P rtl ctl * P.maxTl, cth - borrowCount P rtl ctl) ∧
    (0 ≤ ctl + borrowCount P rtl ctl * P.maxTl - rtl ∧
      ctl + borrowCount P rtl ctl * P.maxTl - rtl < P.maxTl) ∧
    (0 ≤ ctl → rtl < P.maxTl → borrowCount P rtl ctl = 1) ∧
    (∀ a b : FracturedTime, getTh a = cth → getTl a = ctl → getTl b = rtl →
      (!P.isSigned && lt a b) = false → a.tl < b.tl →
      sub P a b = ctor P (cth - borrowCount P rtl ctl)
        (ctl + borrowCount P rtl ctl * P.maxTl - rtl)) := by
  have hR := P.maxTl_pos
  obtain ⟨s1, s2⟩ := borrowCount_spec P rtl ctl
  have hk1 : 1 ≤ borrowCount P rtl ctl := by
    by_contra hk
    have hk' : borrowCount P rtl ctl ≤ 0 := by omega
    nlinarith
  have hcast : ((borrowCount P rtl ctl).toNat : ℤ) = borrowCount P rtl ctl :=
    Int.toNat_of_nonneg (by omega)
  have hloop := borrowLoop_closed P rtl (borrowCount P rtl ctl).toNat ctl cth
    (by rw [hcast]; linarith) (by rw [hcast]; linarith)
  have hcount := borrowLoopCount_closed P rtl (borrowCount P rtl ctl).toNat ctl cth 0
    (by rw [hcast]; linarith) (by rw [hcast]; linarith)
  rw [hcast] at hloop hcount
  rw [Nat.zero_add] at hcount
  refine ⟨hcount, hk1, hloop, ⟨by linarith, by linarith⟩, ?_, ?_⟩
  · intro h0 h1
    by_contra hk
    have hk2 : 2 ≤ borrowCount P rtl ctl := by omega
    nlinarith
  · intro a b hth htl hrtl hc hb
    rw [sub_borrow P a b hc hb, hth, htl, hrtl, hloop]

/-- C16, at `maxTl = 100`: from `ctl = 10`, `cth = 5`, `rtl = 250` the loop runs three times
and ends with `(310, 2)`; and `(5, 10) - (0, 33)` borrows once and is the pair constructor on
`(4, 77)`. -/
theorem C16_borrow_loop_closed_form_witness :
    ((10 : ℤ) < 250 ∧ borrowCount Hundred 250 10 = 3 ∧
      borrowLoopCount Hundred 250 10 5 0 = ((310, 2), 3) ∧
      borrowLoop Hundred 250 10 5
        = (10 + borrowCount Hundred 250 10 * Hundred.maxTl, 5 - borrowCount Hundred 250 10)) ∧
    ((10 : ℤ) < 33 ∧ borrowCount Hundred 33 10 = 1 ∧
      sub Hundred (ctor Hundred 5 10) (ctor Hundred 0 33)
        = ctor Hundred (5 - borrowCount Hundred 33 10)
            (10 + borrowCount Hundred 33 10 * Hundred.maxTl - 33)) :=
  ⟨⟨by decide, by decide!, by decide!,
      (C16_borrow_loop_closed_form Hundred 5 10 250 (by decide)).2.2.1⟩,
    ⟨by decide, by decide!,
      (C16_borrow_loop_closed_form Hundred 5 10 33 (by decide)).2.2.2.2.2
        (ctor Hundred 5 10) (ctor Hundred 0 33) (by decide!) (by decide!) (by decide!)
        (by decide!) (by decide!)⟩⟩

/-- C17: for every positive `maxTl` and all `a`, `b` with `0 <= getTl() < maxTl`, the values
`a + b` and `a - b` (signed or unsigned `T`, whichever branch of `operator-` runs) and the
values left by `+=` and `-=` again satisfy `0 <= getTl() < maxTl`. -/
theorem C17_operators_preserve_range (P : Params) (a b : FracturedTime)
    (ha0 : 0 ≤ getTl a) (_ha1 : getTl a < P.maxTl)
    (hb0 : 0 ≤ getTl b) (_hb1 : getTl b < P.maxTl) :
    (0 ≤ getTl (add P a b) ∧ getTl (add P a b) < P.maxTl) ∧
    (0 ≤ getTl (sub P a b) ∧ getTl (sub P a b) < P.maxTl) ∧
    (0 ≤ getTl (addAssign P a b) ∧ getTl (addAssign P a b) < P.maxTl) ∧
    (0 ≤ getTl (subAssign P a b) ∧ getTl (subAssign P a b) < P.maxTl) :=
  ⟨getTl_ctor_range P _ _ (by omega), getTl_sub_range P a b,
    getTl_ctor_range P _ _ (by omega), getTl_sub_range P a b⟩

/-- C17, at `maxTl = 100`, for `a = (5, 10)` and `b = (1, 33)`: `a + b` reads `(6, 43)` and
`a - b`, in the borrow branch, reads a low of 77. -/
theorem C17_operators_preserve_range_witness :
    (0 ≤ getTl (ctor Hundred 5 10) ∧ getTl (ctor Hundred 5 10) < Hundred.maxTl ∧
      0 ≤ getTl (ctor Hundred 1 33) ∧ getTl (ctor Hundred 1 33) < Hundred.maxTl) ∧
    (pair (add Hundred (ctor Hundred 5 10) (ctor Hundred 1 33)) = (6, 43) ∧
      getTl (sub Hundred (ctor Hundred 5 10) (ctor Hundred 1 33)) = 77) ∧
    ((0 ≤ getTl (add Hundred (ctor Hundred 5 10) (ctor Hundred 1 33)) ∧
        getTl (add Hundred (ctor Hundred 5 10) (ctor Hundred 1 33)) < Hundred.maxTl) ∧
      (0 ≤ getTl (sub Hundred (ctor Hundred 5 10) (ctor Hundred 1 33)) ∧
        getTl (sub Hundred (ctor Hundred 5 10) (ctor Hundred 1 33)) < Hundred.maxTl) ∧
      (0 ≤ getTl (addAssign Hundred (ctor Hundred 5 10) (ctor Hundred 1 33)) ∧
        getTl (addAssign Hundred (ctor Hundred 5 10) (ctor Hundred 1 33)) < Hundred.maxTl) ∧
      (0 ≤ getTl (subAssign Hundred (ctor Hundred 5 10) (ctor Hundred 1 33)) ∧
        getTl (subAssign Hundred (ctor Hundred 5 10) (ctor Hundred 1 33)) < Hundred.maxTl)) :=
  ⟨by decide!, by decide!,
    C17_operators_preserve_range Hundred (ctor Hundred 5 10) (ctor Hundred 1 33)
      (by decide!) (by decide!) (by decide!) (by decide!)⟩

/-- C18 (as stated, refuted): in `double` arithmetic, with `uint32_t` and `maxTl = 100`,
`a = FracturedTime(0, 133)` holds `th = 1` and `tl = 33 + 2^-47`, the rounding residue of
`recalculate`, while `b = FracturedTime(1, 33)` holds `th = 1` and `tl = 33`. Both have a whole
`th`, a low member in `[0, 100)` and read `(1, 33)`; `b < a` and `a == b` is false, yet
`a.timeMS()` and `b.timeMS()` are the same `double` 1.33. Likewise `FracturedTime(0, 114)`,
with `tl = 14 - 3 * 2^-48`, is `<` `FracturedTime(1, 14)` with the same `timeMS()`. -/
theorem C18_double_timeMS_ties :
    ctorD Hundred 0 133 = ⟨1, 33 + 1 / 2 ^ 47⟩ ∧ ctorD Hundred 1 33 = ⟨1, 33⟩ ∧
    pair (ctorD Hundred 0 133) = (1, 33) ∧ pair (ctorD Hundred 1 33) = (1, 33) ∧
    lt (ctorD Hundred 1 33) (ctorD Hundred 0 133) = true ∧
    eq (ctorD Hundred 0 133) (ctorD Hundred 1 33) = false ∧
    timeMSD Hundred (ctorD Hundred 0 133) = timeMSD Hundred (ctorD Hundred 1 33) ∧
    timeMSD Hundred (ctorD Hundred 1 33) = roundDouble (133 / 100) ∧
    ctorD Hundred 0 114 = ⟨1, 14 - 3 / 2 ^ 48⟩ ∧ ctorD Hundred 1 14 = ⟨1, 14⟩ ∧
    lt (ctorD Hundred 0 114) (ctorD Hundred 1 14) = true ∧
    timeMSD Hundred (ctorD Hundred 0 114) = timeMSD Hundred (ctorD Hundred 1 14) := by
  decide!

/-- C18 (amended): for every positive `maxTl` and all values `a`, `b` whose high member holds
a whole number (as in every value the class builds) and whose low member lies in `[0, maxTl)`,
`a < b` holds iff the exact value `th + tl / maxTl` of `a` is below that of `b`, iff
`a.th * maxTl + a.tl < b.th * maxTl + b.tl`, and `a == b` holds iff the exact values are equal;
here `timeMS` is that exact value, which the `double` returned by `timeMS()` rounds. Without
the range condition the equivalence can fail: with `int16_t` and `maxTl = 2`,
`FracturedTime(1, -3)` has the value `-1/2`, below that of `FracturedTime(0, 0)`, and is not
`<` it. -/
theorem C18_order_agrees_with_timeMS (P : Params) (a b : FracturedTime)
    (hah : a.th = (getTh a : ℚ)) (hbh : b.th = (getTh b : ℚ))
    (ha0 : 0 ≤ a.tl) (ha1 : a.tl < P.maxTl) (hb0 : 0 ≤ b.tl) (hb1 : b.tl < P.maxTl) :
    (lt a b = true ↔ timeMS P a < timeMS P b) ∧
    (lt a b = true ↔ a.th * P.maxTl + a.tl < b.th * P.maxTl + b.tl) ∧
    (eq a b = true ↔ timeMS P a = timeMS P b) ∧
    (lt (ctor Half 1 (-3)) (ctor Half 0 0) = false ∧
      timeMS Half (ctor Half 1 (-3)) < timeMS Half (ctor Half 0 0)) := by
  have hR : (0 : ℚ) < (P.maxTl : ℚ) := by exact_mod_cast P.maxTl_pos
  have hT : ∀ v : FracturedTime, timeMS P v = (v.th * P.maxTl + v.tl) / P.maxTl := fun _ => rfl
  have hL : lt a b = true ↔ a.th * P.maxTl + a.tl < b.th * P.maxTl + b.tl := by
    rw [lt_iff_lex]
    constructor
    · rintro (h | ⟨h1, h2⟩)
      · rw [hah, hbh] at h ⊢
        have h' : getTh a + 1 ≤ getTh b := by exact_mod_cast h
        have h'' : (getTh a : ℚ) + 1 ≤ (getTh b : ℚ) := by exact_mod_cast h'
        nlinarith
      · rw [h1]
        linarith
    · intro h
      rcases lt_trichotomy a.th b.th with k | k | k
      · exact Or.inl k
      · rw [k] at h
        exact Or.inr ⟨k, by linarith⟩
      · exfalso
        rw [hah, hbh] at k h
        have k' : getTh b + 1 ≤ getTh a := by exact_mod_cast k
        have k'' : (getTh b : ℚ) + 1 ≤ (getTh a : ℚ) := by exact_mod_cast k'
        nlinarith
  have hE : eq a b = true ↔ a.th * P.maxTl + a.tl = b.th * P.maxTl + b.tl := by
    simp only [eq, decide_eq_true_eq]
    constructor
    · rintro ⟨h1, h2⟩
      rw [h1, h2]
    · intro h
      rcases lt_trichotomy a.th b.th with k | k | k
      · exfalso
        rw [hah, hbh] at k h
        have k' : getTh a + 1 ≤ getTh b := by exact_mod_cast k
        have k'' : (getTh a : ℚ) + 1 ≤ (getTh b : ℚ) := by exact_mod_cast k'
        nlinarith
      · rw [k] at h
        exact ⟨k, by linarith⟩
      · exfalso
        rw [hah, hbh] at k h
        have k' : getTh b + 1 ≤ getTh a := by exact_mod_cast k
        have k'' : (getTh b : ℚ) + 1 ≤ (getTh a : ℚ) := by exact_mod_cast k'
        nlinarith
  refine ⟨?_, hL, ?_, by decide!⟩
  · rw [hL, hT, hT, div_lt_div_iff_of_pos_right hR]
  · rw [hE, hT, hT, div_left_inj' (ne_of_gt hR)]

/-- C18 (amended), at `maxTl = 100`: for the exact values `a = (1, 33)` and `b = (2, 5)`,
`a < b` and the totals are 133 and 205; and for the `double` values `FracturedTime(1, 33)` and
`FracturedTime(0, 133)`, whose `timeMS()` are the same `double`, the exact values tell them
apart as `<` does. -/
theorem C18_order_agrees_with_timeMS_witness :
    ((ctor Hundred 1 33).th = (getTh (ctor Hundred 1 33) : ℚ) ∧
      (ctor Hundred 2 5).th = (getTh (ctor Hundred 2 5) : ℚ) ∧
      0 ≤ (ctor Hundred 1 33).tl ∧ (ctor Hundred 1 33).tl < Hundred.maxTl ∧
      0 ≤ (ctor Hundred 2 5).tl ∧ (ctor Hundred 2 5).tl < Hundred.maxTl) ∧
    lt (ctor Hundred 1 33) (ctor Hundred 2 5) = true ∧
    (lt (ctor Hundred 1 33) (ctor Hundred 2 5) = true
      ↔ timeMS Hundred (ctor Hundred 1 33) < timeMS Hundred (ctor Hundred 2 5)) ∧
    lt (ctorD Hundred 1 33) (ctorD Hundred 0 133) = true ∧
    (lt (ctorD Hundred 1 33) (ctorD Hundred 0 133) = true
      ↔ timeMS Hundred (ctorD Hundred 1 33) < timeMS Hundred (ctorD Hundred 0 133)) :=
  ⟨by decide!, by decide!,
    (C18_order_agrees_with_timeMS Hundred (ctor Hundred 1 33) (ctor Hundred 2 5)
      (by decide!) (by decide!) (by decide!) (by decide!) (by decide!) (by decide!)).1,
    by decide!,
    (C18_order_agrees_with_timeMS Hundred (ctorD Hundred 1 33) (ctorD Hundred 0 133)
      (by decide!) (by decide!) (by decide!) (by decide!) (by decide!) (by decide!)).1⟩

/-- C19: for an unsigned `w`-bit `T`, a positive `maxTl` and all `a`, `b` with whole high
members, readers representable in `T`, `0 <= getTl() < maxTl`, `a.getTl() + maxTl < 2 ^ w`
and not `a < b`, every `T` result computed by `a - b` is representable: the two differences
of the direct branch, and `cth - 1`, `ctl + maxTl`, `ctl - rtl` of the borrow branch. So
`operator-` with arithmetic modulo `2 ^ w` returns, once the loop may run at least once, the
value that `operator-` with unbounded integers returns. -/
theorem C19_no_unsigned_wrap (P : Params) (w : ℕ) (a b : FracturedTime)
    (hT : P.isSigned = false)
    (hah : a.th = (getTh a : ℚ)) (hbh : b.th = (getTh b : ℚ))
    (hbh0 : 0 ≤ getTh b) (hah1 : getTh a < 2 ^ w)
    (ha0 : 0 ≤ getTl a) (_ha1 : getTl a < P.maxTl)
    (hb0 : 0 ≤ getTl b) (hb1 : getTl b < P.maxTl)
    (hR : getTl a + P.maxTl < 2 ^ w)
    (hlt : lt a b = false) :
    (¬ a.tl < b.tl →
      wrapU w (getTh a - getTh b) = getTh a - getTh b ∧
      wrapU w (getTl a - getTl b) = getTl a - getTl b) ∧
    (a.tl < b.tl → getTl a < getTl b →
      wrapU w (getTh a - 1) = getTh a - 1 ∧
      wrapU w (getTl a + P.maxTl) = getTl a + P.maxTl ∧
      wrapU w (getTl a + P.maxTl - getTl b) = getTl a + P.maxTl - getTl b) ∧
    (∀ fuel : ℕ, subU P w (fuel + 1) a b = some (sub P a b)) := by
  have hRpos := P.maxTl_pos
  have hc : (!P.isSigned && lt a b) = false := by rw [hT, hlt]; rfl
  have hnlt : ¬ (a.th < b.th ∨ (a.th = b.th ∧ a.tl < b.tl)) := by
    rw [← lt_iff_lex, hlt]
    exact Bool.false_ne_true
  have hth : getTh b ≤ getTh a := getTh_mono (not_lt.mp fun h => hnlt (Or.inl h))
  have hdirect : ¬ a.tl < b.tl →
      wrapU w (getTh a - getTh b) = getTh a - getTh b ∧
      wrapU w (getTl a - getTl b) = getTl a - getTl b := by
    intro hb
    have htl : getTl b ≤ getTl a := getTl_mono (not_lt.mp hb)
    exact ⟨wrapU_of_range w _ (by omega) (by omega), wrapU_of_range w _ (by omega) (by omega)⟩
  have hth1 : a.tl < b.tl → 1 ≤ getTh a := by
    intro hb
    have h1 : b.th < a.th := by
      rcases lt_trichotomy a.th b.th with k | k | k
      · exact absurd (Or.inl k) hnlt
      · exact absurd (Or.inr ⟨k, hb⟩) hnlt
      · exact k
    rw [hah, hbh] at h1
    have h2 : getTh b < getTh a := by exact_mod_cast h1
    omega
  have hborrow : a.tl < b.tl → getTl a < getTl b →
      wrapU w (getTh a - 1) = getTh a - 1 ∧
      wrapU w (getTl a + P.maxTl) = getTl a + P.maxTl ∧
      wrapU w (getTl a + P.maxTl - getTl b) = getTl a + P.maxTl - getTl b := by
    intro hb _
    have := hth1 hb
    exact ⟨wrapU_of_range w _ (by omega) (by omega), wrapU_of_range w _ (by omega) hR,
      wrapU_of_range w _ (by omega) (by omega)⟩
  refine ⟨hdirect, hborrow, ?_⟩
  intro fuel
  by_cases hb : a.tl < b.tl
  · have hle : getTl a ≤ getTl b := getTl_mono (le_of_lt hb)
    rw [sub_borrow P a b hc hb]
    simp only [subU, hc, hb, if_true, Bool.false_eq_true, if_false]
    rcases lt_or_eq_of_le hle with hl | hl
    · obtain ⟨w1, w2, w3⟩ := hborrow hb hl
      have hdone : ¬ getTl a + P.maxTl < getTl b := by omega
      rw [borrowLoopU, if_pos hl, w1, w2, borrowLoopU_done P w _ fuel _ _ hdone,
        borrowLoop_step P _ _ _ hl, borrowLoop_done P _ _ _ hdone]
      simp only [Option.map_some', w3]
    · have hdone : ¬ getTl a < getTl b := by omega
      rw [borrowLoopU_done P w _ _ _ _ hdone, borrowLoop_done P _ _ _ hdone]
      simp only [Option.map_some']
      rw [wrapU_of_range w _ (by omega) (by omega)]
  · obtain ⟨w1, w2⟩ := hdirect hb
    rw [sub_direct P a b hc hb]
    simp only [subU, hc, hb, Bool.false_eq_true, if_false, w1, w2]

/-- C19, with `uint32_t` and `maxTl = 100`: `(5, 10) - (1, 33)` takes the borrow branch and
`(5, 40) - (1, 33)` the direct branch, and modulo `2 ^ 32` both give what unbounded integers
give. -/
theorem C19_no_unsigned_wrap_witness :
    (Hundred.isSigned = false ∧ lt (ctor Hundred 5 10) (ctor Hundred 1 33) = false ∧
      (ctor Hundred 5 10).tl < (ctor Hundred 1 33).tl ∧
      getTl (ctor Hundred 5 10) + Hundred.maxTl < 2 ^ 32) ∧
    (∀ fuel : ℕ, subU Hundred 32 (fuel + 1) (ctor Hundred 5 10) (ctor Hundred 1 33)
      = some (sub Hundred (ctor Hundred 5 10) (ctor Hundred 1 33))) ∧
    (∀ fuel : ℕ, subU Hundred 32 (fuel + 1) (ctor Hundred 5 40) (ctor Hundred 1 33)
      = some (sub Hundred (ctor Hundred 5 40) (ctor Hundred 1 33))) :=
  ⟨by decide!,
    (C19_no_unsigned_wrap Hundred 32 (ctor Hundred 5 10) (ctor Hundred 1 33) rfl
      (by decide!) (by decide!) (by decide!) (by decide!) (by decide!) (by decide!)
      (by decide!) (by decide!) (by decide!) (by decide!)).2.2,
    (C19_no_unsigned_wrap Hundred 32 (ctor Hundred 5 40) (ctor Hundred 1 33) rfl
      (by decide!) (by decide!) (by decide!) (by decide!) (by decide!) (by decide!)
      (by decide!) (by decide!) (by decide!) (by decide!)).2.2⟩

end FracturedTime
